import Mathlib

/-!
Shallow embedding of wang-edward/synth (two Python files) and proofs about it.

Part 1 models `src/extra/midi.py`'s `note_to_midi`:

    def note_to_midi(s: str) -> int:
        s = s.lower().strip()
        letter = s[0]
        octave = int(s[-1])
        acc = s[1:-1]
        base = {'c':0,'d':2,'e':4,'f':5,'g':7,'a':9,'b':11}[letter]
        flat = acc.count('b') + acc.count('f')
        sharp = acc.count('#')
        semitone = (base - flat + sharp) % 12
        return (octave + 1) * 12 + semitone

Strings are modelled as `List Char`.  `str.lower` and `str.strip` are
modelled on the ASCII range (the inputs in the repository are ASCII), and
`int(s[-1])` on a single character succeeds exactly on a digit character
(a single '+' or '-' does not parse as an int in Python).  Failures
(IndexError on the empty string, KeyError on an unknown letter, ValueError
on a non-digit last character) are collapsed into `none`.
-/

/-- ASCII lowering, modelling `str.lower` on the characters that occur. -/
def lowerChar (c : Char) : Char :=
  if 'A' ≤ c && c ≤ 'Z' then Char.ofNat (c.toNat + 32) else c

/-- The whitespace characters stripped by Python `str.strip`. -/
def isPySpace (c : Char) : Bool :=
  c = ' ' || c = '\t' || c = '\n' || c = '\r' || c = Char.ofNat 11 || c = Char.ofNat 12

/-- `str.strip`: remove leading and trailing whitespace. -/
def pyStrip (cs : List Char) : List Char :=
  ((cs.dropWhile isPySpace).reverse.dropWhile isPySpace).reverse

/-- The dict `{'c':0,'d':2,'e':4,'f':5,'g':7,'a':9,'b':11}`; `none` is KeyError. -/
def baseSemitone (c : Char) : Option Nat :=
  match c with
  | 'c' => some 0
  | 'd' => some 2
  | 'e' => some 4
  | 'f' => some 5
  | 'g' => some 7
  | 'a' => some 9
  | 'b' => some 11
  | _ => none

/-- `int(ch)` for a single character: succeeds exactly on a digit. -/
def digitVal (c : Char) : Option Nat :=
  if '0' ≤ c && c ≤ '9' then some (c.toNat - 48) else none

/-- The body of `note_to_midi` after `s = s.lower().strip()`:
`letter = s[0]`, `octave = int(s[-1])`, `acc = s[1:-1]`,
`flat = acc.count('b') + acc.count('f')`, `sharp = acc.count('#')`,
`semitone = (base - flat + sharp) % 12` (Python `%` on a positive modulus
is non-negative, which `Int.emod` matches), result `(octave+1)*12 + semitone`. -/
def decodeNorm (s : List Char) : Option Nat :=
  match s.head?, s.getLast? with
  | some letter, some lastc =>
    match baseSemitone letter, digitVal lastc with
    | some base, some octave =>
      some ((octave + 1) * 12 +
        (((base : Int) - ((s.drop 1).dropLast.count 'b' + (s.drop 1).dropLast.count 'f')
          + (s.drop 1).dropLast.count '#') % 12).toNat)
    | _, _ => none
  | _, _ => none

/-- `note_to_midi` from `src/extra/midi.py`. -/
def note_to_midi (s : List Char) : Option Nat :=
  decodeNorm (pyStrip (s.map lowerChar))

/-- A recognized letter is never a digit character. -/
theorem baseSemitone_digitVal {c : Char} {b : Nat}
    (hb : baseSemitone c = some b) : digitVal c = none := by
  unfold baseSemitone at hb
  split at hb <;> simp_all <;> decide

/-- C1: for every well-formed pitch-name token (after case normalization and
trimming: first character a recognized letter, last character the octave
digit), `note_to_midi` returns `(octave + 1) * 12 + ((base - flats + sharps) mod 12)`,
where flats counts 'b' and 'f' and sharps counts '#' in the middle accidental
run, the mod-12 value is normalized into [0,12), and other accidental
characters are ignored without error. -/
theorem C1_decode_formula (s : List Char) (c lastc : Char) (base octave : Nat)
    (hh : (pyStrip (s.map lowerChar)).head? = some c)
    (hl : (pyStrip (s.map lowerChar)).getLast? = some lastc)
    (hb : baseSemitone c = some base)
    (hd : digitVal lastc = some octave) :
    note_to_midi s = some ((octave + 1) * 12 +
      (((base : Int)
        - (((pyStrip (s.map lowerChar)).drop 1).dropLast.count 'b'
           + ((pyStrip (s.map lowerChar)).drop 1).dropLast.count 'f')
        + ((pyStrip (s.map lowerChar)).drop 1).dropLast.count '#') % 12).toNat) ∧
    (((base : Int)
        - (((pyStrip (s.map lowerChar)).drop 1).dropLast.count 'b'
           + ((pyStrip (s.map lowerChar)).drop 1).dropLast.count 'f')
        + ((pyStrip (s.map lowerChar)).drop 1).dropLast.count '#') % 12).toNat < 12 := by
  constructor
  · unfold note_to_midi decodeNorm
    simp only [hh, hl, hb, hd]
  · have h12 : (0 : Int) < 12 := by decide
    have := Int.emod_lt_of_pos
      ((base : Int)
        - (((pyStrip (s.map lowerChar)).drop 1).dropLast.count 'b'
           + ((pyStrip (s.map lowerChar)).drop 1).dropLast.count 'f')
        + ((pyStrip (s.map lowerChar)).drop 1).dropLast.count '#') h12
    omega

/-- C1 witness: the token "dbx#4" (accidental run "bx#", the 'x' ignored)
decodes to (4+1)*12 + (2 - 1 + 1) mod 12 = 62. -/
theorem C1_decode_formula_witness : note_to_midi ['d', 'b', 'x', '#', '4'] = some 62 := by
  have h := C1_decode_formula ['d', 'b', 'x', '#', '4'] 'd' '4' 2 4
    (by decide) (by decide) (by decide) (by decide)
  exact h.1.trans (by decide)

/-- C2 counterexample: the claim asserts decode("cf4") = 59 and
decode("ef2") = 38, but the code computes 71 for "cf4" (the mod-12
normalization wraps c-flat to semitone 11 without borrowing from the octave
term: (4+1)*12 + 11 = 71) and 39 for "ef2" ((2+1)*12 + 3 = 39). -/
theorem C2_counterexample :
    note_to_midi ['c', 'f', '4'] ≠ some 59 ∧
    note_to_midi ['e', 'f', '2'] ≠ some 38 := by decide

/-- C2 amended: decode("c4") = 60, decode("c#4") = 61, decode("bf3") = 58 as
claimed, but decode("cf4") = 71 (the flat wraps to semitone 11 inside the
same octave term) and decode("ef2") = 39. -/
theorem C2_amended_values :
    note_to_midi ['c', '4'] = some 60 ∧
    note_to_midi ['c', 'f', '4'] = some 71 ∧
    note_to_midi ['c', '#', '4'] = some 61 ∧
    note_to_midi ['b', 'f', '3'] = some 58 ∧
    note_to_midi ['e', 'f', '2'] = some 39 := by decide

/-- C6: decode fails exactly when, on the normalized token, the first
character is not a recognized letter, or the last character is not a digit
(the only single characters `int` accepts), or the token has fewer than
2 characters; every other token is decoded without error. -/
theorem C6_error_iff (s : List Char) :
    note_to_midi s = none ↔
      ((pyStrip (s.map lowerChar)).head?.bind baseSemitone = none ∨
       (pyStrip (s.map lowerChar)).getLast?.bind digitVal = none ∨
       (pyStrip (s.map lowerChar)).length < 2) := by
  unfold note_to_midi
  generalize pyStrip (s.map lowerChar) = t
  match t with
  | [] => simp [decodeNorm]
  | [c] =>
    refine iff_of_true ?_ (Or.inr (Or.inr (by simp)))
    cases hb : baseSemitone c with
    | none => simp [decodeNorm, hb]
    | some b => simp [decodeNorm, hb, baseSemitone_digitVal hb]
  | c :: d :: rest =>
    rcases hx : (c :: d :: rest).getLast? with _ | x
    · exact absurd (List.getLast?_eq_none_iff.mp hx) (by simp)
    · have hlen : ¬ (c :: d :: rest).length < 2 := by
        simp only [List.length_cons]
        omega
      unfold decodeNorm
      simp only [List.head?_cons, hx, Option.some_bind, hlen, or_false]
      cases hb : baseSemitone c <;> cases hd : digitVal x <;> simp

/-- C7 counterexample: on "c10" the code takes only the final character '0'
as the octave (the '1' falls into the accidental run and is ignored), giving
(0+1)*12 + 0 = 12, not the (10+1)*12 + 0 = 132 a two-digit octave would give. -/
theorem C7_counterexample :
    note_to_midi ['c', '1', '0'] = some 12 ∧ some 12 ≠ some (132 : Nat) := by decide

/-- C7 amended: decode uses only the final character of the token as the
octave; when a token ends in two digits, the penultimate digit lands in the
accidental run, where it contributes nothing to the flat and sharp counts. -/
theorem C7_amended_last_char_only (s : List Char) (c d e : Char) (mid : List Char)
    (base dv octave : Nat)
    (hs : pyStrip (s.map lowerChar) = c :: (mid ++ [d, e]))
    (hb : baseSemitone c = some base)
    (hpen : digitVal d = some dv)
    (hd : digitVal e = some octave) :
    note_to_midi s = some ((octave + 1) * 12 +
      (((base : Int) - (mid.count 'b' + mid.count 'f') + mid.count '#') % 12).toNat) := by
  have hdb : d ≠ 'b' := by rintro rfl; simp [digitVal] at hpen
  have hdf : d ≠ 'f' := by rintro rfl; simp [digitVal] at hpen
  have hdsharp : d ≠ '#' := by rintro rfl; simp [digitVal] at hpen
  have hl : (c :: (mid ++ [d, e])).getLast? = some e := by
    have h2 : c :: (mid ++ [d, e]) = (c :: mid ++ [d]) ++ [e] := by simp
    rw [h2, List.getLast?_concat]
  unfold note_to_midi
  rw [hs]
  unfold decodeNorm
  simp only [List.head?_cons, hl, hb, hd]
  have hacc : ((c :: (mid ++ [d, e])).drop 1).dropLast = mid ++ [d] := by
    have h2 : mid ++ [d, e] = (mid ++ [d]) ++ [e] := by
      rw [List.append_assoc]
      rfl
    show (mid ++ [d, e]).dropLast = mid ++ [d]
    rw [h2, List.dropLast_concat]
  rw [hacc]
  have hcb : List.count 'b' (mid ++ [d]) = List.count 'b' mid := by
    simp [List.count_append, Ne.symm hdb]
  have hcf : List.count 'f' (mid ++ [d]) = List.count 'f' mid := by
    simp [List.count_append, Ne.symm hdf]
  have hcs : List.count '#' (mid ++ [d]) = List.count '#' mid := by
    simp [List.count_append, Ne.symm hdsharp]
  rw [hcb, hcf, hcs]

/-- C7 witness for the amended statement: "c10" decodes to 12. -/
theorem C7_amended_witness : note_to_midi ['c', '1', '0'] = some 12 := by
  have h := C7_amended_last_char_only ['c', '1', '0'] 'c' '1' '0' [] 0 1 0
    (by decide) (by decide) (by decide) (by decide)
  exact h.trans (by decide)

/-!
Part 2 models `src/extra/midi_file.py`'s conversion loop:

    tempo = 120.0
    ticks_per_beat = mid.ticks_per_beat
    notes = []
    active = {}
    for track in mid.tracks:
        tick = 0
        for msg in track:
            tick += msg.time
            if msg.type == 'set_tempo':
                tempo = 60_000_000 / msg.tempo
            elif msg.type == 'note_on' and msg.velocity > 0:
                active[msg.note] = tick
            elif msg.type in ('note_off', 'note_on'):
                if msg.note in active:
                    notes.append((active.pop(msg.note) / ticks_per_beat,
                                  tick / ticks_per_beat, msg.note))
    ...
    for start, end, note in sorted(notes):
        ...

A mido message is modelled by its fields the loop reads: `msg.time` (the
relative delta, an integer), and per type the tempo / note / velocity
payloads; every other message type is `other`.  Python float division is
modelled exactly by rational division.  The dict `active` is modelled as a
function `Nat → Option Int` (one binding per key, as a dict).  A note tuple
`(start, end, note)` is `ℚ × ℚ × Nat`, and Python `sorted` on such tuples is
merge sort under the lexicographic order `noteLe`.
-/

/-- One mido message, reduced to the fields the script reads. -/
inductive Msg where
  | set_tempo (time : Int) (tempo : Nat)
  | note_on (time : Int) (note : Nat) (velocity : Nat)
  | note_off (time : Int) (note : Nat) (velocity : Nat)
  | other (time : Int)
deriving DecidableEq

/-- `msg.time`, the relative delta of the message. -/
def Msg.time : Msg → Int
  | .set_tempo t _ => t
  | .note_on t _ _ => t
  | .note_off t _ _ => t
  | .other t => t

/-- The mutable state of the script: `tempo`, `notes`, `active`. -/
structure ConvState where
  tempo : ℚ
  notes : List (ℚ × ℚ × Nat)
  active : Nat → Option Int

/-- The `elif msg.type in ('note_off', 'note_on')` branch body:
`if msg.note in active: notes.append((active.pop(msg.note)/tpb, tick/tpb, msg.note))`. -/
def popNote (tpb : Nat) (tick : Int) (n : Nat) (st : ConvState) : ConvState :=
  match st.active n with
  | some start =>
    { st with
      notes := st.notes ++ [((start : ℚ) / (tpb : ℚ), (tick : ℚ) / (tpb : ℚ), n)],
      active := fun k => if k = n then none else st.active k }
  | none => st

/-- One iteration of the inner loop: `tick += msg.time` followed by the
if/elif chain.  A `note_on` with zero velocity falls through to the
note-off branch, and any other message type changes nothing. -/
def processMsg (tpb : Nat) (p : Int × ConvState) (m : Msg) : Int × ConvState :=
  let tick := p.1 + m.time
  match m with
  | .set_tempo _ t => (tick, { p.2 with tempo := (60000000 : ℚ) / (t : ℚ) })
  | .note_on _ n v =>
    if 0 < v then
      (tick, { p.2 with active := fun k => if k = n then some tick else p.2.active k })
    else
      (tick, popNote tpb tick n p.2)
  | .note_off _ n _ => (tick, popNote tpb tick n p.2)
  | .other _ => (tick, p.2)

/-- One iteration of the outer loop: `tick = 0`, then fold the track. -/
def processTrack (tpb : Nat) (st : ConvState) (track : List Msg) : ConvState :=
  (track.foldl (processMsg tpb) (0, st)).2

/-- The state before the outer loop: `tempo = 120.0`, `notes = []`, `active = {}`. -/
def initState : ConvState := { tempo := 120, notes := [], active := fun _ => none }

/-- The whole conversion loop over all tracks. -/
def convert (tpb : Nat) (tracks : List (List Msg)) : ConvState :=
  tracks.foldl (processTrack tpb) initState

/-- Python tuple comparison on `(start, end, note)`: lexicographic. -/
def noteLe (a b : ℚ × ℚ × Nat) : Bool :=
  decide (a.1 < b.1) ||
    (decide (a.1 = b.1) &&
      (decide (a.2.1 < b.2.1) || (decide (a.2.1 = b.2.1) && decide (a.2.2 ≤ b.2.2))))

/-- `sorted(notes)` of the script's epilogue. -/
def emitNotes (tpb : Nat) (tracks : List (List Msg)) : List (ℚ × ℚ × Nat) :=
  ((convert tpb tracks).notes).mergeSort noteLe

/-- The microseconds-per-beat of the last `set_tempo` seen, if any. -/
def lastTempoAux (acc : Option Nat) (ms : List Msg) : Option Nat :=
  ms.foldl (fun a m => match m with | .set_tempo _ t => some t | _ => a) acc

/-- The last `set_tempo` payload in iteration order over a message list. -/
def lastTempoEvt (ms : List Msg) : Option Nat :=
  lastTempoAux none ms

/-- `popNote` never changes the tempo field. -/
theorem popNote_tempo (tpb : Nat) (tick : Int) (n : Nat) (st : ConvState) :
    (popNote tpb tick n st).tempo = st.tempo := by
  unfold popNote
  split <;> rfl

/-- The tempo after one message: updated on `set_tempo`, untouched otherwise. -/
theorem processMsg_tempo (tpb : Nat) (p : Int × ConvState) (m : Msg) :
    ((processMsg tpb p m).2).tempo =
      match m with
      | .set_tempo _ t => (60000000 : ℚ) / (t : ℚ)
      | _ => p.2.tempo := by
  cases m with
  | set_tempo d t => rfl
  | note_on d n v =>
    unfold processMsg
    by_cases hv : 0 < v
    · simp [hv]
    · simp [hv, popNote_tempo]
  | note_off d n v =>
    unfold processMsg
    simp [popNote_tempo]
  | other d => rfl

/-- Tempo tracking of the loop, as a fold of its own. -/
def tempoFold (q : ℚ) (ms : List Msg) : ℚ :=
  ms.foldl (fun a m => match m with | .set_tempo _ t => (60000000 : ℚ) / (t : ℚ) | _ => a) q

theorem tempoFold_append (q : ℚ) (xs ys : List Msg) :
    tempoFold q (xs ++ ys) = tempoFold (tempoFold q xs) ys := by
  unfold tempoFold
  rw [List.foldl_append]

theorem lastTempoAux_eq (ms : List Msg) : ∀ (a : Option Nat),
    lastTempoAux a ms = match lastTempoEvt ms with | some t => some t | none => a := by
  induction ms with
  | nil => intro a; rfl
  | cons m ms ih =>
    intro a
    cases m with
    | set_tempo d t =>
      have h1 : lastTempoAux a (Msg.set_tempo d t :: ms) = lastTempoAux (some t) ms := rfl
      have h2 : lastTempoEvt (Msg.set_tempo d t :: ms) = lastTempoAux (some t) ms := rfl
      rw [h1, h2, ih (some t)]
      cases lastTempoEvt ms <;> rfl
    | note_on d n v =>
      have h1 : lastTempoAux a (Msg.note_on d n v :: ms) = lastTempoAux a ms := rfl
      have h2 : lastTempoEvt (Msg.note_on d n v :: ms) = lastTempoEvt ms := rfl
      rw [h1, h2, ih a]
    | note_off d n v =>
      have h1 : lastTempoAux a (Msg.note_off d n v :: ms) = lastTempoAux a ms := rfl
      have h2 : lastTempoEvt (Msg.note_off d n v :: ms) = lastTempoEvt ms := rfl
      rw [h1, h2, ih a]
    | other d =>
      have h1 : lastTempoAux a (Msg.other d :: ms) = lastTempoAux a ms := rfl
      have h2 : lastTempoEvt (Msg.other d :: ms) = lastTempoEvt ms := rfl
      rw [h1, h2, ih a]

theorem tempoFold_eq (ms : List Msg) : ∀ (q : ℚ),
    tempoFold q ms =
      match lastTempoEvt ms with
      | some t => (60000000 : ℚ) / (t : ℚ)
      | none => q := by
  induction ms with
  | nil => intro q; rfl
  | cons m ms ih =>
    intro q
    cases m with
    | set_tempo d t =>
      have h1 : tempoFold q (Msg.set_tempo d t :: ms) =
          tempoFold ((60000000 : ℚ) / (t : ℚ)) ms := rfl
      have h2 : lastTempoEvt (Msg.set_tempo d t :: ms) = lastTempoAux (some t) ms := rfl
      rw [h1, h2, ih, lastTempoAux_eq]
      cases lastTempoEvt ms <;> rfl
    | note_on d n v =>
      have h1 : tempoFold q (Msg.note_on d n v :: ms) = tempoFold q ms := rfl
      have h2 : lastTempoEvt (Msg.note_on d n v :: ms) = lastTempoEvt ms := rfl
      rw [h1, h2, ih]
    | note_off d n v =>
      have h1 : tempoFold q (Msg.note_off d n v :: ms) = tempoFold q ms := rfl
      have h2 : lastTempoEvt (Msg.note_off d n v :: ms) = lastTempoEvt ms := rfl
      rw [h1, h2, ih]
    | other d =>
      have h1 : tempoFold q (Msg.other d :: ms) = tempoFold q ms := rfl
      have h2 : lastTempoEvt (Msg.other d :: ms) = lastTempoEvt ms := rfl
      rw [h1, h2, ih]

theorem tempo_foldl (tpb : Nat) (ms : List Msg) : ∀ (p : Int × ConvState),
    ((ms.foldl (processMsg tpb) p).2).tempo = tempoFold p.2.tempo ms := by
  induction ms with
  | nil => intro p; rfl
  | cons m ms ih =>
    intro p
    rw [List.foldl_cons, ih, processMsg_tempo]
    cases m <;> rfl

theorem convert_tempo_flatten (tpb : Nat) (tracks : List (List Msg)) :
    (convert tpb tracks).tempo = tempoFold 120 tracks.flatten := by
  unfold convert
  suffices h : ∀ (st : ConvState),
      (tracks.foldl (processTrack tpb) st).tempo = tempoFold st.tempo tracks.flatten by
    exact h initState
  induction tracks with
  | nil => intro st; rfl
  | cons trk tracks ih =>
    intro st
    rw [List.foldl_cons, ih, List.flatten_cons, tempoFold_append]
    have hp : (processTrack tpb st trk).tempo = tempoFold st.tempo trk := by
      unfold processTrack
      rw [tempo_foldl]
    rw [hp]

/-- C4: the delivered tempo is 60,000,000 / microseconds_per_beat of the last
tempo event in iteration order across all tracks, 120 BPM when none occurs;
in particular 500000 microseconds per beat gives 120 and 1,000,000 gives 60. -/
theorem C4_last_tempo_wins (tpb : Nat) (tracks : List (List Msg)) :
    (convert tpb tracks).tempo =
      (match lastTempoEvt tracks.flatten with
       | some t => (60000000 : ℚ) / (t : ℚ)
       | none => 120) ∧
    (convert tpb [[Msg.set_tempo 0 500000]]).tempo = 120 ∧
    (convert tpb [[Msg.set_tempo 0 1000000]]).tempo = 60 := by
  refine ⟨?_, ?_, ?_⟩
  · rw [convert_tempo_flatten, tempoFold_eq]
  · rw [convert_tempo_flatten]
    show (60000000 : ℚ) / ((500000 : Nat) : ℚ) = 120
    norm_num
  · rw [convert_tempo_flatten]
    show (60000000 : ℚ) / ((1000000 : Nat) : ℚ) = 60
    norm_num

/-- The running tick after one message is always the old tick plus the
message's own delta, whatever the message type. -/
theorem processMsg_fst (tpb : Nat) (p : Int × ConvState) (m : Msg) :
    (processMsg tpb p m).1 = p.1 + m.time := by
  cases m with
  | set_tempo d t => rfl
  | note_on d n v =>
    unfold processMsg
    by_cases hv : 0 < v <;> simp [hv, Msg.time]
  | note_off d n v => rfl
  | other d => rfl

/-- The running tick over a track is the incoming tick plus the sum of deltas. -/
theorem foldl_fst_sum (tpb : Nat) (ms : List Msg) : ∀ (p : Int × ConvState),
    (ms.foldl (processMsg tpb) p).1 = p.1 + (ms.map Msg.time).sum := by
  induction ms with
  | nil => intro p; simp
  | cons m ms ih =>
    intro p
    rw [List.foldl_cons, ih, processMsg_fst]
    simp only [List.map_cons, List.sum_cons]
    rw [add_assoc]

/-- C8: a tempo-change descriptor updates the tempo; a note-on with positive
velocity records the pitch in the active table; a note-off, or a note-on with
zero velocity, runs the note-off branch (`popNote`); every other event type
changes nothing.  Each event's tick is the running sum of deltas including
its own, and the counter restarts at zero for each track. -/
theorem C8_event_classification (tpb : Nat) :
    (∀ (tick : Int) (st : ConvState) (d : Int) (t : Nat),
      processMsg tpb (tick, st) (.set_tempo d t) =
        (tick + d, { st with tempo := (60000000 : ℚ) / (t : ℚ) })) ∧
    (∀ (tick : Int) (st : ConvState) (d : Int) (n v : Nat), 0 < v →
      processMsg tpb (tick, st) (.note_on d n v) =
        (tick + d, { st with active := fun k => if k = n then some (tick + d) else st.active k })) ∧
    (∀ (tick : Int) (st : ConvState) (d : Int) (n v : Nat),
      processMsg tpb (tick, st) (.note_off d n v) = (tick + d, popNote tpb (tick + d) n st)) ∧
    (∀ (tick : Int) (st : ConvState) (d : Int) (n : Nat),
      processMsg tpb (tick, st) (.note_on d n 0) = (tick + d, popNote tpb (tick + d) n st)) ∧
    (∀ (tick : Int) (st : ConvState) (d : Int),
      processMsg tpb (tick, st) (.other d) = (tick + d, st)) ∧
    (∀ (st : ConvState) (trk : List Msg),
      processTrack tpb st trk = (trk.foldl (processMsg tpb) ((0 : Int), st)).2) ∧
    (∀ (st : ConvState) (trk : List Msg),
      (trk.foldl (processMsg tpb) ((0 : Int), st)).1 = (trk.map Msg.time).sum) := by
  refine ⟨fun tick st d t => rfl, ?_, fun tick st d n v => rfl, ?_, fun tick st d => rfl,
    fun st trk => rfl, ?_⟩
  · intro tick st d n v hv
    unfold processMsg
    simp [hv, Msg.time]
  · intro tick st d n
    unfold processMsg
    simp [Msg.time]
  · intro st trk
    rw [foldl_fst_sum]
    simp

/-- C8 witness: a note-on with velocity 100 at delta 3 from tick 0 stores
tick 3 for pitch 60. -/
theorem C8_event_classification_witness :
    processMsg 480 ((0 : Int), initState) (Msg.note_on 3 60 100) =
      (3, { initState with active := fun k => if k = 60 then some 3 else initState.active k }) := by
  have h := (C8_event_classification 480).2.1 0 initState 3 60 100 (by decide)
  simpa using h

/-- C3: a note-on for an already-active pitch overwrites the stored start
tick without emitting anything, so NoteOn(p, tick 0), NoteOn(p, tick 5),
NoteOff(p, tick 10) yields exactly one record with start tick 5 and end
tick 10 (in beat units, divided by ticks_per_beat). -/
theorem C3_overwrite_pending (tpb p : Nat) :
    (convert tpb [[Msg.note_on 0 p 1, Msg.note_on 5 p 1, Msg.note_off 5 p 0]]).notes =
      [((5 : ℚ) / (tpb : ℚ), (10 : ℚ) / (tpb : ℚ), p)] ∧
    (∀ (tick : Int) (st : ConvState) (d : Int) (n v : Nat), 0 < v →
      (processMsg tpb (tick, st) (.note_on d n v)).2.active n = some (tick + d) ∧
      (processMsg tpb (tick, st) (.note_on d n v)).2.notes = st.notes) := by
  constructor
  · simp only [convert, processTrack, List.foldl, processMsg, popNote, initState, Msg.time]
    norm_num
  · intro tick st d n v hv
    unfold processMsg
    simp [hv, Msg.time]

/-- C3 witness: the overwrite scenario at ticks_per_beat 480 and pitch 60,
and a note-on storing its tick over an arbitrary prior state. -/
theorem C3_overwrite_pending_witness :
    (convert 480 [[Msg.note_on 0 60 1, Msg.note_on 5 60 1, Msg.note_off 5 60 0]]).notes =
      [((5 : ℚ) / (480 : ℚ), (10 : ℚ) / (480 : ℚ), 60)] ∧
    (processMsg 480 ((0 : Int), initState) (Msg.note_on 7 60 1)).2.active 60 = some 7 := by
  constructor
  · exact (C3_overwrite_pending 480 60).1.trans (by norm_num)
  · have h := ((C3_overwrite_pending 480 60).2 0 initState 7 60 1 (by decide)).1
    simpa using h

/-- C5 counterexample: an event stream containing a negative
relative_time_delta is not rejected; the conversion runs to completion and
emits a note record (claim: it aborts with no note list). -/
theorem C5_counterexample :
    (convert 1 [[Msg.note_on (-1) 60 1, Msg.note_off 2 60 0]]).notes =
      [((-1 : ℚ), (1 : ℚ), 60)] ∧
    (convert 1 [[Msg.note_on (-1) 60 1, Msg.note_off 2 60 0]]).notes ≠ [] := by
  have h1 : (convert 1 [[Msg.note_on (-1) 60 1, Msg.note_off 2 60 0]]).notes =
      [((-1 : ℚ), (1 : ℚ), 60)] := by
    simp only [convert, processTrack, List.foldl, processMsg, popNote, initState, Msg.time]
    norm_num
  exact ⟨h1, by rw [h1]; simp⟩

/-- C5 amended: the loop performs no validation of relative_time_delta: a
negative delta simply decreases the running tick counter and the conversion
proceeds and emits its notes; no MalformedEventStream failure exists. -/
theorem C5_amended_no_delta_validation :
    (∀ (tpb : Nat) (p : Int × ConvState) (m : Msg),
      (processMsg tpb p m).1 = p.1 + m.time) ∧
    (convert 1 [[Msg.note_on (-1) 60 1, Msg.note_off 2 60 0]]).notes =
      [((-1 : ℚ), (1 : ℚ), 60)] := by
  refine ⟨processMsg_fst, ?_⟩
  simp only [convert, processTrack, List.foldl, processMsg, popNote, initState, Msg.time]
  norm_num

/-- C10: the tick counter restarts at zero for each track while the active
table persists, so a note-on at a large tick in an earlier track closed by a
note-off at a small tick in a later track yields a record whose end beat is
strictly below its start beat. -/
theorem C10_cross_track_inversion :
    (convert 1 [[Msg.note_on 100 60 1], [Msg.note_off 5 60 0]]).notes =
      [((100 : ℚ), (5 : ℚ), 60)] ∧ (5 : ℚ) < (100 : ℚ) := by
  constructor
  · simp only [convert, processTrack, List.foldl, processMsg, popNote, initState, Msg.time]
    norm_num
  · norm_num

/-- The lexicographic tuple order on `(start, end, note)` as a proposition. -/
def noteLeP (a b : ℚ × ℚ × Nat) : Prop :=
  a.1 < b.1 ∨ (a.1 = b.1 ∧ (a.2.1 < b.2.1 ∨ (a.2.1 = b.2.1 ∧ a.2.2 ≤ b.2.2)))

theorem noteLe_iff (a b : ℚ × ℚ × Nat) : noteLe a b = true ↔ noteLeP a b := by
  unfold noteLe noteLeP
  simp [Bool.or_eq_true, Bool.and_eq_true, decide_eq_true_iff]

theorem noteLeP_trans {a b c : ℚ × ℚ × Nat}
    (h1 : noteLeP a b) (h2 : noteLeP b c) : noteLeP a c := by
  unfold noteLeP at h1 h2 ⊢
  rcases h1 with h1 | ⟨e1, h1⟩
  · rcases h2 with h2 | ⟨e2, h2⟩
    · exact Or.inl (h1.trans h2)
    · exact Or.inl (e2 ▸ h1)
  · rcases h2 with h2 | ⟨e2, h2⟩
    · exact Or.inl (e1.trans_lt h2)
    · refine Or.inr ⟨e1.trans e2, ?_⟩
      rcases h1 with h1 | ⟨f1, h1⟩
      · rcases h2 with h2 | ⟨f2, h2⟩
        · exact Or.inl (h1.trans h2)
        · exact Or.inl (f2 ▸ h1)
      · rcases h2 with h2 | ⟨f2, h2⟩
        · exact Or.inl (f1.trans_lt h2)
        · exact Or.inr ⟨f1.trans f2, h1.trans h2⟩

theorem noteLe_total (a b : ℚ × ℚ × Nat) : (noteLe a b || noteLe b a) = true := by
  rw [Bool.or_eq_true, noteLe_iff, noteLe_iff]
  unfold noteLeP
  rcases lt_trichotomy a.1 b.1 with h | h | h
  · exact Or.inl (Or.inl h)
  · rcases lt_trichotomy a.2.1 b.2.1 with h2 | h2 | h2
    · exact Or.inl (Or.inr ⟨h, Or.inl h2⟩)
    · rcases Nat.le_total a.2.2 b.2.2 with h3 | h3
      · exact Or.inl (Or.inr ⟨h, Or.inr ⟨h2, h3⟩⟩)
      · exact Or.inr (Or.inr ⟨h.symm, Or.inr ⟨h2.symm, h3⟩⟩)
    · exact Or.inr (Or.inr ⟨h.symm, Or.inl h2⟩)
  · exact Or.inr (Or.inl h)

/-- C9: the emitted list is the assembled records merge-sorted under the
lexicographic tuple order (start, end, pitch): it is a permutation of the
assembled records (duplicates preserved, nothing filtered), every adjacent
and non-adjacent pair respects the lexicographic order with fallback to
end then pitch on equal starts, and multiplicities are unchanged. -/
theorem C9_emit_sorted_permutation (tpb : Nat) (tracks : List (List Msg)) :
    (emitNotes tpb tracks).Perm ((convert tpb tracks).notes) ∧
    List.Pairwise noteLeP (emitNotes tpb tracks) := by
  have hperm : (emitNotes tpb tracks).Perm ((convert tpb tracks).notes) := by
    unfold emitNotes
    exact List.mergeSort_perm ((convert tpb tracks).notes) noteLe
  refine ⟨hperm, ?_⟩
  have hs := @List.sorted_mergeSort (ℚ × ℚ × Nat) noteLe
    (fun a b c h1 h2 =>
      (noteLe_iff a c).mpr (noteLeP_trans ((noteLe_iff a b).mp h1) ((noteLe_iff b c).mp h2)))
    (fun a b => noteLe_total a b)
    ((convert tpb tracks).notes)
  exact hs.imp (fun h => (noteLe_iff _ _).mp h)
